import Mathlib

/-!
Verification of the git-conflict-resolver repository.

Texts are modelled as `List Char` (one JavaScript string character per
entry) and line arrays as `List (List Char)`, mirroring the JavaScript
`String.split("\n")` / `Array.join` semantics exactly.  All functions are
direct translations of the source files `apply-patch.js` (the unified-diff
parser and patch applier) and `resolve-conflict.js` (the conflict hunk
locator, marker parser, hunk resolver and undo subsystem).
-/

/-- ASCII whitespace as used by the JavaScript `trim`/`trimEnd` calls in
the source (the source only ever meets spaces, tabs and line terminators). -/
def isWsChar (c : Char) : Bool :=
  c == ' ' || c == '\t' || c == '\n' || c == '\r'

/-- JavaScript `String.prototype.trimEnd`: drop trailing whitespace. -/
def trimEnd (cs : List Char) : List Char :=
  (cs.reverse.dropWhile isWsChar).reverse

/-- JavaScript `String.prototype.trim`: drop leading and trailing whitespace. -/
def jsTrim (cs : List Char) : List Char :=
  ((cs.dropWhile isWsChar).reverse.dropWhile isWsChar).reverse

/-- JavaScript `String.prototype.startsWith`. -/
def startsWith : List Char → List Char → Bool
  | [], _ => true
  | _ :: _, [] => false
  | p :: ps, c :: cs => p == c && startsWith ps cs

/-- JavaScript `String.prototype.split("\n")`: always returns one more
piece than the number of newline characters; pieces carry no newline.
In particular `"".split("\n") = [""]`. -/
def splitNl : List Char → List (List Char)
  | [] => [[]]
  | c :: cs =>
    if c = '\n' then [] :: splitNl cs
    else
      match splitNl cs with
      | [] => [[c]]
      | p :: ps => (c :: p) :: ps

/-- JavaScript `Array.prototype.join("\n")`. -/
def joinNl : List (List Char) → List Char
  | [] => []
  | [p] => p
  | p :: ps => p ++ '\n' :: joinNl ps

/-- A diff operation, `["remove", line]` or `["add", line]` in the source. -/
inductive Op where
  | remove (line : List Char)
  | add (line : List Char)
deriving DecidableEq

/-- Tag test: is the operation a `Remove`. -/
def isRemoveOp : Op → Bool
  | Op.remove _ => true
  | Op.add _ => false

/-- Tag test: is the operation an `Add`. -/
def isAddOp : Op → Bool
  | Op.add _ => true
  | Op.remove _ => false

/-- The line payload of an operation. -/
def opLine : Op → List Char
  | Op.remove l => l
  | Op.add l => l

/-- `"---"` (`DIFF_HEADER_PREFIX_RM` in apply-patch.js). -/
def DIFF_HEADER_RM : List Char := ['-', '-', '-']

/-- `"+++"` (`DIFF_HEADER_PREFIX_ADD` in apply-patch.js). -/
def DIFF_HEADER_ADD : List Char := ['+', '+', '+']

/-- `"@@"` (`HUNK_HEADER` in apply-patch.js). -/
def HUNK_HEADER : List Char := ['@', '@']

/-- `"-"` (`PREFIX_RM` in apply-patch.js). -/
def RM_MARK : List Char := ['-']

/-- `"+"` (`PREFIX_ADD` in apply-patch.js). -/
def ADD_MARK : List Char := ['+']

/-- `" "` (`PREFIX_CONTEXT` in apply-patch.js). -/
def CONTEXT_MARK : List Char := [' ']

/-- The loop body of `parseUnifiedDiff` in apply-patch.js, iterating over
the lines of the (already trimmed) diff content. -/
def parseOps : List (List Char) → List Op
  | [] => []
  | line :: rest =>
    if startsWith DIFF_HEADER_RM line || startsWith DIFF_HEADER_ADD line
        || startsWith HUNK_HEADER line then
      parseOps rest
    else if startsWith RM_MARK line then
      Op.remove (line.drop 1) :: parseOps rest
    else if startsWith ADD_MARK line then
      Op.add (line.drop 1) :: parseOps rest
    else if startsWith CONTEXT_MARK line then
      parseOps rest
    else
      parseOps rest

/-- `parseUnifiedDiff` from apply-patch.js: trims the diff content, splits
it into lines and classifies each line into operations. -/
def parseUnifiedDiff (diffContent : List Char) : List Op :=
  parseOps (splitNl (jsTrim diffContent))

/-- The `removed` check inside `applyOperations`: does some remove
operation trim-right-equal this target line (the loop `break`s on the
first match, which is observationally `List.any`). -/
def matchesSomeRemove (operations : List Op) (line : List Char) : Bool :=
  operations.any fun op =>
    match op with
    | Op.remove opLine => trimEnd line == trimEnd opLine
    | Op.add _ => false

/-- The `while` loop of `applyOperations`: keep the target lines not
matched by any remove operation, in order. -/
def filterRemoves (targetLines : List (List Char)) (operations : List Op) :
    List (List Char) :=
  match targetLines with
  | [] => []
  | line :: rest =>
    if matchesSomeRemove operations line then filterRemoves rest operations
    else line :: filterRemoves rest operations

/-- The `additions` array of `applyOperations`: every add operation's line
with a `"\n"` appended, in diff order. -/
def additionsOf (operations : List Op) : List (List Char) :=
  operations.filterMap fun op =>
    match op with
    | Op.add opLine => some (opLine ++ ['\n'])
    | Op.remove _ => none

/-- `applyOperations` from apply-patch.js. -/
def applyOperations (targetLines : List (List Char)) (operations : List Op) :
    List (List Char) :=
  let result := filterRemoves targetLines operations
  let additions := additionsOf operations
  if additions.length > 0 then additions ++ result else result

/-- The line splitting of `applyPatch` in apply-patch.js:
`content.split("\n").map((line, idx, arr) => idx < arr.length - 1 || line !== "" ? line + "\n" : line)`.
Every piece except the last gets a `"\n"` appended; the last piece gets
one exactly when it is nonempty. -/
def attachTerminators : List (List Char) → List (List Char)
  | [] => []
  | [l] => [if l = [] then [] else l ++ ['\n']]
  | l :: rest => (l ++ ['\n']) :: attachTerminators rest

/-- The `targetLines` value built by `applyPatch` from the target file's
content. -/
def targetLinesOf (targetContent : List Char) : List (List Char) :=
  attachTerminators (splitNl targetContent)

/-- The file-content transformation performed by `applyPatch` in
apply-patch.js (file reads and writes elided): the new content of the
target file, `resultLines.join("")`. -/
def applyPatchContent (targetContent diffContent : List Char) : List Char :=
  List.flatten (applyOperations (targetLinesOf targetContent) (parseUnifiedDiff diffContent))

/-- `"<<<<<<<"` (`CONFLICT_START` in resolve-conflict.js). -/
def CONFLICT_START : List Char := ['<', '<', '<', '<', '<', '<', '<']

/-- `"|||||||"` (`CONFLICT_MIDDLE_OLD` in resolve-conflict.js). -/
def CONFLICT_MIDDLE_OLD : List Char := ['|', '|', '|', '|', '|', '|', '|']

/-- `"======="` (`CONFLICT_SEPARATOR` in resolve-conflict.js). -/
def CONFLICT_SEPARATOR : List Char := ['=', '=', '=', '=', '=', '=', '=']

/-- `">>>>>>>"` (`CONFLICT_END` in resolve-conflict.js). -/
def CONFLICT_END : List Char := ['>', '>', '>', '>', '>', '>', '>']

/-- `line.startsWith(CONFLICT_START)`. -/
def isStartLine (l : List Char) : Bool := startsWith CONFLICT_START l

/-- `line.startsWith(CONFLICT_MIDDLE_OLD)`. -/
def isMiddleLine (l : List Char) : Bool := startsWith CONFLICT_MIDDLE_OLD l

/-- `line.startsWith(CONFLICT_SEPARATOR)`. -/
def isSepLine (l : List Char) : Bool := startsWith CONFLICT_SEPARATOR l

/-- `line.startsWith(CONFLICT_END)`. -/
def isEndLine (l : List Char) : Bool := startsWith CONFLICT_END l

/-- The result record of `findFirstConflictHunk` in resolve-conflict.js. -/
structure ConflictInfo where
  startLine : Nat
  endLine : Nat
  hunkText : List Char
deriving DecidableEq

/-- The scanning loop of `findFirstConflictHunk`: walk the lines carrying
the current index and the most recently seen start-marker index
(`startIdx`, `none` standing for the JavaScript `-1`); a line starting
with `<<<<<<<` updates `startIdx` to the current index, and the loop
`break`s at the first line starting with `>>>>>>>` once a start marker
has been seen. -/
def findLoop : List (List Char) → Nat → Option Nat → Option (Nat × Nat)
  | [], _, _ => none
  | line :: rest, i, startIdx =>
    match (if isStartLine line then some i else startIdx) with
    | none => findLoop rest (i + 1) none
    | some sv =>
      if isEndLine line then some (sv, i)
      else findLoop rest (i + 1) (some sv)

/-- JavaScript `Array.prototype.slice(a, b)` for the index ranges used in
the source (both arguments nonnegative). -/
def jsSlice (lines : List (List Char)) (a b : Nat) : List (List Char) :=
  (lines.drop a).take (b - a)

/-- `findFirstConflictHunk` from resolve-conflict.js. -/
def findFirstConflictHunk (fileContent : List Char) : Option ConflictInfo :=
  let lines := splitNl fileContent
  match findLoop lines 0 none with
  | none => none
  | some (startIdx, endIdx) =>
    some { startLine := startIdx, endLine := endIdx,
           hunkText := joinNl (jsSlice lines startIdx (endIdx + 1)) ++ ['\n'] }

/-- The section record returned by `parseConflictMarkers`
(`{ newOld, old, new }`, with `old = null` for the 2-way format). -/
structure ConflictSections where
  newOld : List Char
  old : Option (List Char)
  new : List Char
deriving DecidableEq

/-- The scanning loop of `parseConflictMarkers`: walk the lines carrying
the current index and the last seen indices of the `<<<<<<<`, `|||||||`
and `=======` markers (each `none` standing for the JavaScript `-1`);
`break` at the first `>>>>>>>` line.  Each marker assignment overwrites
the previous one, so the tracked indices are the last occurrences before
the first end marker. -/
def scanMarkers : List (List Char) → Nat → Option Nat → Option Nat → Option Nat →
    Option Nat × Option Nat × Option Nat × Option Nat
  | [], _, newOldStart, oldStart, newStart => (newOldStart, oldStart, newStart, none)
  | line :: rest, i, newOldStart, oldStart, newStart =>
    if isStartLine line then scanMarkers rest (i + 1) (some i) oldStart newStart
    else if isMiddleLine line then scanMarkers rest (i + 1) newOldStart (some i) newStart
    else if isSepLine line then scanMarkers rest (i + 1) newOldStart oldStart (some i)
    else if isEndLine line then (newOldStart, oldStart, newStart, some i)
    else scanMarkers rest (i + 1) newOldStart oldStart newStart

/-- `parseConflictMarkers` from resolve-conflict.js. -/
def parseConflictMarkers (hunkText : List Char) : Option ConflictSections :=
  let lines := splitNl hunkText
  match scanMarkers lines 0 none none none with
  | (some newOldStart, oldStart?, some newStart, some endIdx) =>
    match oldStart? with
    | none =>
      some { newOld := joinNl (jsSlice lines (newOldStart + 1) newStart) ++ ['\n'],
             old := none,
             new := joinNl (jsSlice lines (newStart + 1) endIdx) ++ ['\n'] }
    | some oldStart =>
      some { newOld := joinNl (jsSlice lines (newOldStart + 1) oldStart) ++ ['\n'],
             old := some (joinNl (jsSlice lines (oldStart + 1) newStart) ++ ['\n']),
             new := joinNl (jsSlice lines (newStart + 1) endIdx) ++ ['\n'] }
  | _ => none

/-- `resolveHunk` from resolve-conflict.js.  The external `diff -u`
collaborator (invoked via `generateDiff` on temporary files) is passed in
as an oracle producing unified-diff text from the `old` and `newOld`
section texts; temporary-file reads and writes round-trip contents
unchanged and are elided.  The `!diffOutput || diffOutput.trim() === ""`
short-circuit test is modelled by the trimmed output being empty. -/
def resolveHunk (diffOracle : List Char → List Char → List Char)
    (sections : ConflictSections) : List Char :=
  let diffOutput := diffOracle (sections.old.getD []) sections.newOld
  if jsTrim diffOutput = [] then sections.new
  else applyPatchContent sections.new diffOutput

/-- The persisted undo record written by `saveUndoState` (the `filepath`
and `timestamp` fields play no role in the splicing and are elided). -/
structure UndoState where
  originalHunk : List Char
  lineStart : Nat
  lineEnd : Nat
  resolvedLineCount : Nat
deriving DecidableEq

/-- The `if (arr[arr.length - 1] === "") arr.pop()` idiom used on the
resolved lines in `applyResolvedHunk` and on the hunk lines in
`performUndo`. -/
def popTrailingEmpty (ls : List (List Char)) : List (List Char) :=
  if ls.getLast? = some ([] : List Char) then ls.dropLast else ls

/-- `applyResolvedHunk` from resolve-conflict.js (file reads and writes
elided): returns the new file content together with the `UndoState`
persisted by `saveUndoState`. -/
def applyResolvedHunk (fileContent : List Char) (info : ConflictInfo)
    (resolvedContent : List Char) : List Char × UndoState :=
  let lines := splitNl fileContent
  let beforeConflict := lines.take info.startLine
  let afterConflict := lines.drop (info.endLine + 1)
  let resolvedLines := popTrailingEmpty (splitNl resolvedContent)
  let newLines := beforeConflict ++ resolvedLines ++ afterConflict
  (joinNl newLines,
   { originalHunk := info.hunkText, lineStart := info.startLine,
     lineEnd := info.endLine, resolvedLineCount := resolvedLines.length })

/-- `performUndo` from resolve-conflict.js (state-file reading, file
reads and writes elided): restores the original hunk over the resolved
block of the given file content. -/
def performUndo (st : UndoState) (fileContent : List Char) : List Char :=
  let lines := splitNl fileContent
  let beforeConflict := lines.take st.lineStart
  let afterConflict := lines.drop (st.lineStart + st.resolvedLineCount)
  let hunkLines := popTrailingEmpty (splitNl st.originalHunk)
  joinNl (beforeConflict ++ hunkLines ++ afterConflict)

/-- Modelled from the spec: the per-line classification rule of §4.1 /
claim C7 — header lines (`---`, `+++`, `@@`) are discarded, `-` lines
become `Remove` and `+` lines `Add` with the prefix stripped, single-space
context lines are discarded, any other line is ignored. -/
def specClassifyLine (line : List Char) : Option Op :=
  if startsWith DIFF_HEADER_RM line || startsWith DIFF_HEADER_ADD line
      || startsWith HUNK_HEADER line then
    none
  else if startsWith RM_MARK line then
    some (Op.remove (line.drop 1))
  else if startsWith ADD_MARK line then
    some (Op.add (line.drop 1))
  else
    none

/-- Modelled from claim C7's words: classification applied to the lines of
the diff text itself (no whitespace trimming of the whole text first). -/
def claimParseUnifiedDiff (diffContent : List Char) : List Op :=
  (splitNl diffContent).filterMap specClassifyLine

/-- Index of the first line satisfying `p`. -/
def firstIdxP (p : List Char → Bool) : List (List Char) → Option Nat
  | [] => none
  | l :: rest => if p l then some 0 else (firstIdxP p rest).map (· + 1)

/-- Index of the last line satisfying `p`. -/
def lastIdxP (p : List Char → Bool) : List (List Char) → Option Nat
  | [] => none
  | l :: rest =>
    match lastIdxP p rest with
    | some j => some (j + 1)
    | none => if p l then some 0 else none

/-- The prefix of the line list strictly before the first `>>>>>>>` line
(the whole list when there is none): the region actually scanned by the
marker loop of `parseConflictMarkers`. -/
def preEnd (lines : List (List Char)) : List (List Char) :=
  lines.take ((firstIdxP isEndLine lines).getD lines.length)

/-- Combine an accumulator marker index with the (relative) index found in
the remaining lines, shifted by the base index `i`: a marker occurrence in
the scanned region overwrites the accumulator, otherwise the accumulator
survives. -/
def shiftedOr (acc : Option Nat) (i : Nat) : Option Nat → Option Nat
  | some j => some (i + j)
  | none => acc

/-- Modelled from the amended claim C4: the sections are delimited by the
last `<<<<<<<`, last `|||||||` and last `=======` lines occurring strictly
before the first `>>>>>>>` line, and that first `>>>>>>>` line. -/
def specParseConflictMarkers (hunkText : List Char) : Option ConflictSections :=
  let lines := splitNl hunkText
  let pre := preEnd lines
  match lastIdxP isStartLine pre, lastIdxP isMiddleLine pre,
      lastIdxP isSepLine pre, firstIdxP isEndLine lines with
  | some newOldStart, oldStart?, some newStart, some endIdx =>
    match oldStart? with
    | none =>
      some { newOld := joinNl (jsSlice lines (newOldStart + 1) newStart) ++ ['\n'],
             old := none,
             new := joinNl (jsSlice lines (newStart + 1) endIdx) ++ ['\n'] }
    | some oldStart =>
      some { newOld := joinNl (jsSlice lines (newOldStart + 1) oldStart) ++ ['\n'],
             old := some (joinNl (jsSlice lines (oldStart + 1) newStart) ++ ['\n']),
             new := joinNl (jsSlice lines (newStart + 1) endIdx) ++ ['\n'] }
  | _, _, _, _ => none

/-- Modelled from claim C4's words: the sections delimited by the first
occurrence of each marker type in textual order. -/
def claimParseConflictMarkers (hunkText : List Char) : Option ConflictSections :=
  let lines := splitNl hunkText
  match firstIdxP isStartLine lines, firstIdxP isMiddleLine lines,
      firstIdxP isSepLine lines, firstIdxP isEndLine lines with
  | some newOldStart, oldStart?, some newStart, some endIdx =>
    match oldStart? with
    | none =>
      some { newOld := joinNl (jsSlice lines (newOldStart + 1) newStart) ++ ['\n'],
             old := none,
             new := joinNl (jsSlice lines (newStart + 1) endIdx) ++ ['\n'] }
    | some oldStart =>
      some { newOld := joinNl (jsSlice lines (newOldStart + 1) oldStart) ++ ['\n'],
             old := some (joinNl (jsSlice lines (oldStart + 1) newStart) ++ ['\n']),
             new := joinNl (jsSlice lines (newStart + 1) endIdx) ++ ['\n'] }
  | _, _, _, _ => none

/-- A complete hunk exists: some line starting with `>>>>>>>` is preceded
(weakly) by a line starting with `<<<<<<<`, or the `seen` flag carries an
already-seen start marker into the scan. -/
def hasHunkB (seen : Bool) : List (List Char) → Bool
  | [] => false
  | l :: rest =>
    ((seen || isStartLine l) && isEndLine l) || hasHunkB (seen || isStartLine l) rest

theorem splitNl_cons_nl (cs : List Char) : splitNl ('\n' :: cs) = [] :: splitNl cs := by
  simp [splitNl]

theorem splitNl_cons_ne (c : Char) (cs p : List Char) (ps : List (List Char))
    (hc : c ≠ '\n') (hps : splitNl cs = p :: ps) :
    splitNl (c :: cs) = (c :: p) :: ps := by
  simp only [splitNl, if_neg hc, hps]

theorem getLast?_mem_self {α : Type} {l : List α} {a : α} (h : l.getLast? = some a) :
    a ∈ l := by
  obtain ⟨hne, heq⟩ := List.mem_getLast?_eq_getLast (l := l) (x := a) (Option.mem_def.mpr h)
  exact heq ▸ List.getLast_mem hne

theorem splitNl_ne_nil (cs : List Char) : splitNl cs ≠ [] := by
  induction cs with
  | nil => simp [splitNl]
  | cons c cs ih =>
    by_cases hc : c = '\n'
    · subst hc
      simp [splitNl_cons_nl]
    · obtain ⟨p, ps, hps⟩ := List.exists_cons_of_ne_nil ih
      simp [splitNl_cons_ne c cs p ps hc hps]

theorem joinNl_cons_cons (p q : List Char) (qs : List (List Char)) :
    joinNl (p :: q :: qs) = p ++ '\n' :: joinNl (q :: qs) := by
  simp [joinNl]

theorem joinNl_splitNl (cs : List Char) : joinNl (splitNl cs) = cs := by
  induction cs with
  | nil => simp [splitNl, joinNl]
  | cons c cs ih =>
    obtain ⟨p, ps, hps⟩ := List.exists_cons_of_ne_nil (splitNl_ne_nil cs)
    rw [hps] at ih
    by_cases hc : c = '\n'
    · subst hc
      rw [splitNl_cons_nl, hps, joinNl_cons_cons, ih]
      simp
    · rw [splitNl_cons_ne c cs p ps hc hps]
      cases ps with
      | nil => simpa [joinNl] using ih
      | cons q qs =>
        rw [joinNl_cons_cons] at ih
        rw [joinNl_cons_cons, List.cons_append, ih]

theorem splitNl_no_newline (cs : List Char) :
    ∀ p ∈ splitNl cs, '\n' ∉ p := by
  induction cs with
  | nil => simp [splitNl]
  | cons c cs ih =>
    intro p hp
    obtain ⟨q, qs, hqs⟩ := List.exists_cons_of_ne_nil (splitNl_ne_nil cs)
    rw [hqs] at ih
    by_cases hc : c = '\n'
    · subst hc
      rw [splitNl_cons_nl, hqs] at hp
      rcases List.mem_cons.mp hp with h | h
      · simp [h]
      · exact ih p (hqs ▸ h)
    · rw [splitNl_cons_ne c cs q qs hc hqs] at hp
      rcases List.mem_cons.mp hp with h | h
      · subst h
        intro hmem
        rcases List.mem_cons.mp hmem with h3 | h3
        · exact hc h3.symm
        · exact ih q (List.mem_cons_self q qs) h3
      · exact ih p (List.mem_cons_of_mem q h)

theorem splitNl_single (p : List Char) (h : '\n' ∉ p) : splitNl p = [p] := by
  induction p with
  | nil => simp [splitNl]
  | cons c cs ih =>
    have hc : ¬ c = '\n' := fun hh => h (by simp [hh])
    have hcs : '\n' ∉ cs := fun hh => h (List.mem_cons_of_mem c hh)
    exact splitNl_cons_ne c cs cs [] hc (ih hcs)

theorem splitNl_append_cons (p cs : List Char) (h : '\n' ∉ p) :
    splitNl (p ++ '\n' :: cs) = p :: splitNl cs := by
  induction p with
  | nil => simp [splitNl_cons_nl]
  | cons c q ih =>
    have hc : ¬ c = '\n' := fun hh => h (by simp [hh])
    have hq : '\n' ∉ q := fun hh => h (List.mem_cons_of_mem c hh)
    rw [List.cons_append, splitNl_cons_ne c (q ++ '\n' :: cs) q (splitNl cs) hc (ih hq)]

theorem splitNl_joinNl (ls : List (List Char)) (hnl : ∀ p ∈ ls, '\n' ∉ p)
    (hne : ls ≠ []) : splitNl (joinNl ls) = ls := by
  induction ls with
  | nil => exact absurd rfl hne
  | cons p ps ih =>
    cases ps with
    | nil =>
      simp only [joinNl]
      exact splitNl_single p (hnl p (by simp))
    | cons q qs =>
      have hjoin : joinNl (p :: q :: qs) = p ++ '\n' :: joinNl (q :: qs) := by
        simp [joinNl]
      rw [hjoin, splitNl_append_cons p _ (hnl p (by simp))]
      rw [ih (fun r hr => hnl r (List.mem_cons_of_mem p hr)) (by simp)]

theorem splitNl_append_newline (cs : List Char) :
    splitNl (cs ++ ['\n']) = splitNl cs ++ [[]] := by
  induction cs with
  | nil => simp [splitNl, splitNl_cons_nl]
  | cons c cs ih =>
    obtain ⟨p, ps, hps⟩ := List.exists_cons_of_ne_nil (splitNl_ne_nil cs)
    by_cases hc : c = '\n'
    · subst hc
      rw [List.cons_append, splitNl_cons_nl, splitNl_cons_nl, ih, List.cons_append]
    · rw [List.cons_append,
        splitNl_cons_ne c (cs ++ ['\n']) p (ps ++ [[]]) hc (by rw [ih, hps]; simp),
        splitNl_cons_ne c cs p ps hc hps, List.cons_append]

theorem splitNl_getLast_empty_iff (cs : List Char) :
    (splitNl cs).getLast? = some ([] : List Char) ↔
      (cs = [] ∨ cs.getLast? = some '\n') := by
  induction cs with
  | nil => simp [splitNl]
  | cons c cs ih =>
    obtain ⟨p, ps, hps⟩ := List.exists_cons_of_ne_nil (splitNl_ne_nil cs)
    by_cases hc : c = '\n'
    · subst hc
      rw [splitNl_cons_nl, hps, List.getLast?_cons_cons, ← hps, ih]
      cases cs with
      | nil => simp
      | cons d ds => simp [List.getLast?_cons_cons]
    · rw [splitNl_cons_ne c cs p ps hc hps]
      cases ps with
      | nil =>
        have hpcs : p = cs := by
          have h := joinNl_splitNl cs
          rw [hps] at h
          simpa [joinNl] using h
        have hnonl : '\n' ∉ cs := by
          rw [← hpcs]
          exact splitNl_no_newline cs p (by rw [hps]; simp)
        constructor
        · intro h
          simp at h
        · intro h
          rcases h with h | h
          · exact absurd h (by simp)
          · exfalso
            have hmem : '\n' ∈ c :: cs := getLast?_mem_self h
            rcases List.mem_cons.mp hmem with h2 | h2
            · exact hc h2.symm
            · exact hnonl h2
      | cons q qs =>
        rw [List.getLast?_cons_cons, ← List.getLast?_cons_cons (a := p), ← hps, ih]
        cases cs with
        | nil => simp [splitNl] at hps
        | cons d ds => simp [List.getLast?_cons_cons]

theorem filterRemoves_eq_filter (targetLines : List (List Char)) (operations : List Op) :
    filterRemoves targetLines operations =
      targetLines.filter fun l => !(matchesSomeRemove operations l) := by
  induction targetLines with
  | nil => rfl
  | cons line rest ih =>
    simp only [filterRemoves, List.filter_cons]
    by_cases h : matchesSomeRemove operations line
    · simp [h, ih]
    · simp [h, ih]

theorem applyOperations_eq (targetLines : List (List Char)) (operations : List Op) :
    applyOperations targetLines operations =
      additionsOf operations ++ filterRemoves targetLines operations := by
  unfold applyOperations
  by_cases h : (additionsOf operations).length > 0
  · simp [h]
  · have : additionsOf operations = [] := by
      cases hadd : additionsOf operations with
      | nil => rfl
      | cons a as => rw [hadd] at h; simp at h
    simp [h, this]

theorem additionsOf_append (o₁ o₂ : List Op) :
    additionsOf (o₁ ++ o₂) = additionsOf o₁ ++ additionsOf o₂ := by
  simp [additionsOf]

theorem matchesSomeRemove_append (o₁ o₂ : List Op) (l : List Char) :
    matchesSomeRemove (o₁ ++ o₂) l =
      (matchesSomeRemove o₁ l || matchesSomeRemove o₂ l) := by
  simp [matchesSomeRemove]

theorem filterRemoves_congr (targetLines : List (List Char)) (o₁ o₂ : List Op)
    (h : ∀ l ∈ targetLines, matchesSomeRemove o₁ l = matchesSomeRemove o₂ l) :
    filterRemoves targetLines o₁ = filterRemoves targetLines o₂ := by
  induction targetLines with
  | nil => rfl
  | cons line rest ih =>
    simp only [filterRemoves, h line (List.mem_cons_self line rest)]
    rw [ih fun l hl => h l (List.mem_cons_of_mem line hl)]

theorem additionsOf_ne_nil (operations : List Op) (l : List Char)
    (h : Op.add l ∈ operations) : additionsOf operations ≠ [] := by
  induction operations with
  | nil => simp at h
  | cons op rest ih =>
    rcases List.mem_cons.mp h with h1 | h1
    · subst h1
      simp [additionsOf]
    · cases op with
      | add a => simp [additionsOf]
      | remove a =>
        simp only [additionsOf, List.filterMap_cons]
        exact ih h1

theorem matchesSomeRemove_of_all_adds (operations : List Op) (l : List Char)
    (h : ∀ op ∈ operations, isAddOp op = true) :
    matchesSomeRemove operations l = false := by
  induction operations with
  | nil => simp [matchesSomeRemove]
  | cons op rest ih =>
    have hop := h op (List.mem_cons_self op rest)
    cases op with
    | remove a => simp [isAddOp] at hop
    | add a =>
      simp only [matchesSomeRemove, List.any_cons]
      simpa [matchesSomeRemove] using ih fun o ho => h o (List.mem_cons_of_mem _ ho)

theorem additionsOf_nil_of_all_removes (operations : List Op)
    (h : ∀ op ∈ operations, isRemoveOp op = true) : additionsOf operations = [] := by
  induction operations with
  | nil => rfl
  | cons op rest ih =>
    have hop := h op (List.mem_cons_self op rest)
    cases op with
    | add a => simp [isRemoveOp] at hop
    | remove a =>
      simp only [additionsOf, List.filterMap_cons]
      exact ih fun o ho => h o (List.mem_cons_of_mem _ ho)

theorem filterRemoves_nil_ops (targetLines : List (List Char)) :
    filterRemoves targetLines [] = targetLines := by
  induction targetLines with
  | nil => rfl
  | cons line rest ih => simp [filterRemoves, matchesSomeRemove, ih]

theorem parseOps_eq_filterMap (lines : List (List Char)) :
    parseOps lines = lines.filterMap specClassifyLine := by
  induction lines with
  | nil => rfl
  | cons line rest ih =>
    simp only [parseOps, specClassifyLine, List.filterMap_cons]
    by_cases h1 : (startsWith DIFF_HEADER_RM line || startsWith DIFF_HEADER_ADD line
        || startsWith HUNK_HEADER line) = true
    · simp [h1, ih]
    · simp only [Bool.not_eq_true] at h1
      by_cases h2 : startsWith RM_MARK line = true
      · simp [h1, h2, ih]
      · by_cases h3 : startsWith ADD_MARK line = true
        · simp [h1, h2, h3, ih]
        · by_cases h4 : startsWith CONTEXT_MARK line = true
          · simp [h1, h2, h3, h4, ih]
          · simp [h1, h2, h3, h4, ih]

theorem flatten_attachTerminators (ls : List (List Char)) (hne : ls ≠ []) :
    List.flatten (attachTerminators ls) =
      joinNl ls ++ (if ls.getLast? = some ([] : List Char) then [] else ['\n']) := by
  induction ls with
  | nil => exact absurd rfl hne
  | cons p ps ih =>
    cases ps with
    | nil =>
      by_cases hp : p = ([] : List Char)
      · subst hp
        simp [attachTerminators, joinNl]
      · simp [attachTerminators, joinNl, hp]
    | cons q qs =>
      have hat : attachTerminators (p :: q :: qs) =
          (p ++ ['\n']) :: attachTerminators (q :: qs) := rfl
      rw [hat, List.flatten_cons, ih (by simp), joinNl_cons_cons,
        List.getLast?_cons_cons]
      simp

example : splitNl "".toList = [[]] := by decide
example : splitNl "a\nb".toList = ["a".toList, "b".toList] := by decide
example : splitNl "a\n".toList = ["a".toList, []] := by decide
example : joinNl ["a".toList, "b".toList] = "a\nb".toList := by decide

example :
    applyPatchContent "line1\nline2\nline3\n".toList
      "--- old\n+++ new\n@@ -1,3 +1,2 @@\n line1\n-line2\n line3\n".toList =
    "line1\nline3\n".toList := by decide

example :
    applyPatchContent "line1\nline3\n".toList
      "--- old\n+++ new\n@@ -1,2 +1,3 @@\n line1\n+line2\n line3\n".toList =
    "line2\nline1\nline3\n".toList := by decide

example :
    applyPatchContent "line1\nline2\nline3\n".toList
      "--- old\n+++ new\n@@ -1,3 +1,3 @@\n line1\n-line2\n+line2-modified\n line3\n".toList =
    "line2-modified\nline1\nline3\n".toList := by decide

example :
    findFirstConflictHunk "a\n<<<<<<< x\n1\n||||||| y\n2\n=======\n3\n>>>>>>> z\nb\n".toList =
    some { startLine := 1, endLine := 7,
           hunkText := "<<<<<<< x\n1\n||||||| y\n2\n=======\n3\n>>>>>>> z\n".toList } := by
  decide

example :
    parseConflictMarkers "<<<<<<< x\n1\n||||||| y\n2\n=======\n3\n>>>>>>> z\n".toList =
    some { newOld := "1\n".toList, old := some "2\n".toList, new := "3\n".toList } := by
  decide

example :
    parseConflictMarkers "<<<<<<< x\n1\n=======\n3\n>>>>>>> z\n".toList =
    some { newOld := "1\n".toList, old := none, new := "3\n".toList } := by
  decide

/-- C1 counterexample: with target lines `["x\n", "x\n"]` and the single
operation `Remove "x"`, that one remove operation trim-right-matches two
target lines and deletes both of them, so it is false that every remove
operation matches (and deletes) exactly one target line or none. -/
theorem C1_counterexample :
    (["x\n".toList, "x\n".toList].countP
        fun l => matchesSomeRemove [Op.remove "x".toList] l) = 2 ∧
    applyOperations ["x\n".toList, "x\n".toList] [Op.remove "x".toList] = [] := by
  decide

/-- C1 (amended): each `Remove` operation deletes every target line that
trim-right-matches it — possibly none, one, or several — and a `Remove`
that matches no target line is silently ignored: appending it to the
operation list leaves the result unchanged and raises no error. -/
theorem C1_remove_matching (T : List (List Char)) (O : List Op) (r : List Char) :
    filterRemoves T O = T.filter (fun l => !(matchesSomeRemove O l)) ∧
    ((∀ l ∈ T, trimEnd l ≠ trimEnd r) →
      applyOperations T (O ++ [Op.remove r]) = applyOperations T O) := by
  refine ⟨filterRemoves_eq_filter T O, fun h => ?_⟩
  rw [applyOperations_eq, applyOperations_eq, additionsOf_append]
  have hadd : additionsOf [Op.remove r] = [] := rfl
  rw [hadd, List.append_nil]
  have hcongr : ∀ l ∈ T,
      matchesSomeRemove (O ++ [Op.remove r]) l = matchesSomeRemove O l := by
    intro l hl
    rw [matchesSomeRemove_append]
    have : matchesSomeRemove [Op.remove r] l = false := by
      simp only [matchesSomeRemove, List.any_cons, List.any_nil, Bool.or_false]
      exact beq_eq_false_iff_ne.mpr (h l hl)
    rw [this, Bool.or_false]
  rw [filterRemoves_congr T _ _ hcongr]

/-- C1 witness: instantiation of `C1_remove_matching` at the target
`["a\n"]`, the empty operation list and the unmatched remove line `"z"`. -/
theorem C1_remove_matching_witness :
    filterRemoves ["a\n".toList] [] =
      (["a\n".toList]).filter (fun l => !(matchesSomeRemove [] l)) ∧
    applyOperations ["a\n".toList] ([] ++ [Op.remove "z".toList]) =
      applyOperations ["a\n".toList] [] :=
  ⟨(C1_remove_matching ["a\n".toList] [] "z".toList).1,
   (C1_remove_matching ["a\n".toList] [] "z".toList).2 (by decide)⟩

/-- C3: if the operation list contains at least one `Add`, the result is
all added lines, in diff order, prepended to the front of the lines that
survive remove-filtering; in particular for an operation list of only
`Add`s the result is the add lines followed by the unchanged target. -/
theorem C3_addition_placement (T : List (List Char)) (O : List Op) :
    ((∃ l, Op.add l ∈ O) → applyOperations T O = additionsOf O ++ filterRemoves T O) ∧
    ((∀ op ∈ O, isAddOp op = true) → applyOperations T O = additionsOf O ++ T) := by
  constructor
  · intro _
    exact applyOperations_eq T O
  · intro h
    rw [applyOperations_eq, filterRemoves_eq_filter]
    congr 1
    rw [List.filter_eq_self]
    intro l _
    simp [matchesSomeRemove_of_all_adds O l h]

/-- C3 witness: instantiation of `C3_addition_placement` at the target
`["line1\n", "line3\n"]` and the single operation `Add "line2"`. -/
theorem C3_addition_placement_witness :
    applyOperations ["line1\n".toList, "line3\n".toList] [Op.add "line2".toList] =
      additionsOf [Op.add "line2".toList] ++
        filterRemoves ["line1\n".toList, "line3\n".toList] [Op.add "line2".toList] ∧
    applyOperations ["line1\n".toList, "line3\n".toList] [Op.add "line2".toList] =
      additionsOf [Op.add "line2".toList] ++ ["line1\n".toList, "line3\n".toList] :=
  ⟨(C3_addition_placement ["line1\n".toList, "line3\n".toList]
      [Op.add "line2".toList]).1 ⟨"line2".toList, by decide⟩,
   (C3_addition_placement ["line1\n".toList, "line3\n".toList]
      [Op.add "line2".toList]).2 (by decide)⟩

/-- C6: for a target `T` and an operation list of only `Remove`s, each
trim-right-matching some line of `T`, the result is exactly `T` with the
matched lines removed — the surviving lines are those matching no remove,
kept in their original relative order (a sublist of `T`), with no lines
added. -/
theorem C6_remove_only (T : List (List Char)) (O : List Op)
    (hrem : ∀ op ∈ O, isRemoveOp op = true)
    (_hmatch : ∀ op ∈ O, ∃ t ∈ T, trimEnd t = trimEnd (opLine op)) :
    applyOperations T O = T.filter (fun l => !(matchesSomeRemove O l)) ∧
    List.Sublist (applyOperations T O) T := by
  have heq : applyOperations T O = T.filter (fun l => !(matchesSomeRemove O l)) := by
    rw [applyOperations_eq, additionsOf_nil_of_all_removes O hrem, List.nil_append,
      filterRemoves_eq_filter]
  exact ⟨heq, heq ▸ List.filter_sublist T⟩

/-- C6 witness: instantiation of `C6_remove_only` at the target
`["a\n", "b\n"]` and the single operation `Remove "a"`. -/
theorem C6_remove_only_witness :
    applyOperations ["a\n".toList, "b\n".toList] [Op.remove "a".toList] =
      (["a\n".toList, "b\n".toList]).filter
        (fun l => !(matchesSomeRemove [Op.remove "a".toList] l)) ∧
    List.Sublist (applyOperations ["a\n".toList, "b\n".toList] [Op.remove "a".toList])
      ["a\n".toList, "b\n".toList] :=
  C6_remove_only ["a\n".toList, "b\n".toList] [Op.remove "a".toList]
    (by decide) (by decide)

/-- C7 counterexample: on the one-line diff text `" -a"` the parser first
trims the whole text and then emits `Remove "a"`, whereas classifying the
text's own line (which starts with a single space) would discard it; so
the classification is not applied to the lines of the diff text itself. -/
theorem C7_counterexample :
    parseUnifiedDiff " -a".toList ≠ claimParseUnifiedDiff " -a".toList ∧
    parseUnifiedDiff " -a".toList = [Op.remove "a".toList] ∧
    claimParseUnifiedDiff " -a".toList = [] := by
  decide

/-- C7 (amended): the parser first trims leading and trailing whitespace
from the whole diff text; it then emits operations exactly for the body
lines of the trimmed text, in order of appearance, classified per line:
`---`/`+++`/`@@` header lines discarded, `-` lines become `Remove` and
`+` lines `Add` with the prefix stripped, single-space context lines
discarded, and all other lines ignored (the function is total, so no
input raises an error). -/
theorem C7_classification (d : List Char) :
    parseUnifiedDiff d = (splitNl (jsTrim d)).filterMap specClassifyLine :=
  parseOps_eq_filterMap (splitNl (jsTrim d))

/-- C10 counterexample: the target text `"line1\nline2"` has no trailing
terminator, yet its final line is modelled as `"line2\n"` — the applier
appends a terminator to it — so applying an empty operation set yields
`"line1\nline2\n"`, not the original text. -/
theorem C10_counterexample :
    List.flatten (applyOperations (targetLinesOf "line1\nline2".toList) []) ≠
      "line1\nline2".toList ∧
    (targetLinesOf "line1\nline2".toList).getLast? = some "line2\n".toList := by
  decide

/-- C10 (amended): in the applier's line model every line carries its own
trailing terminator, including a terminator-less final source line, which
has a terminator appended; only the final empty piece arising from a
source text that ends in a terminator (or is empty) stays bare.  Hence
applying an empty operation set returns the target unchanged when it ends
in a terminator or is empty, and otherwise appends one terminator. -/
theorem C10_line_terminators (c : List Char) :
    List.flatten (applyOperations (targetLinesOf c) []) =
      (if c = [] ∨ c.getLast? = some '\n' then c else c ++ ['\n']) := by
  have hops : applyOperations (targetLinesOf c) [] = targetLinesOf c := by
    rw [applyOperations_eq, filterRemoves_nil_ops]
    rfl
  rw [hops, targetLinesOf, flatten_attachTerminators _ (splitNl_ne_nil c),
    joinNl_splitNl]
  simp only [splitNl_getLast_empty_iff]
  by_cases h : c = [] ∨ c.getLast? = some '\n'
  · simp [h]
  · simp [h]

theorem findLoop_isSome (lines : List (List Char)) :
    ∀ (i : Nat) (st : Option Nat),
      (findLoop lines i st).isSome = hasHunkB st.isSome lines := by
  induction lines with
  | nil => intro i st; rfl
  | cons line rest ih =>
    intro i st
    cases hs : isStartLine line with
    | true =>
      cases he : isEndLine line with
      | true => simp [findLoop, hasHunkB, hs, he]
      | false => simp [findLoop, hasHunkB, hs, he, ih (i + 1) (some i)]
    | false =>
      cases st with
      | none =>
        cases he : isEndLine line with
        | true => simp [findLoop, hasHunkB, hs, he, ih (i + 1) none]
        | false => simp [findLoop, hasHunkB, hs, he, ih (i + 1) none]
      | some sv =>
        cases he : isEndLine line with
        | true => simp [findLoop, hasHunkB, hs, he]
        | false => simp [findLoop, hasHunkB, hs, he, ih (i + 1) (some sv)]

theorem hasHunkB_iff (lines : List (List Char)) :
    ∀ seen : Bool,
      hasHunkB seen lines = true ↔
        ∃ j, j < lines.length ∧ isEndLine (lines.getD j []) = true ∧
          (seen = true ∨ ∃ k, k ≤ j ∧ isStartLine (lines.getD k []) = true) := by
  induction lines with
  | nil => intro seen; simp [hasHunkB]
  | cons line rest ih =>
    intro seen
    simp only [hasHunkB, Bool.or_eq_true, Bool.and_eq_true]
    constructor
    · rintro (⟨hseen, hend⟩ | hrest)
      · refine ⟨0, by simp, by simpa using hend, ?_⟩
        rcases hseen with h | h
        · exact Or.inl h
        · exact Or.inr ⟨0, le_refl 0, by simpa using h⟩
      · obtain ⟨j, hj, hend, hside⟩ := (ih (seen || isStartLine line)).mp hrest
        refine ⟨j + 1, by simpa using hj, by simpa using hend, ?_⟩
        rcases hside with h | h
        · rcases Bool.or_eq_true _ _ |>.mp h with h2 | h2
          · exact Or.inl h2
          · exact Or.inr ⟨0, Nat.zero_le _, by simpa using h2⟩
        · obtain ⟨k, hk, hstart⟩ := h
          exact Or.inr ⟨k + 1, by omega, by simpa using hstart⟩
    · rintro ⟨j, hj, hend, hside⟩
      cases j with
      | zero =>
        left
        refine ⟨?_, by simpa using hend⟩
        rcases hside with h | h
        · simp [h]
        · obtain ⟨k, hk, hstart⟩ := h
          interval_cases k
          simp only [List.getD_cons_zero] at hstart
          simp [hstart]
      | succ j =>
        right
        refine (ih (seen || isStartLine line)).mpr ⟨j, by simpa using hj,
          by simpa using hend, ?_⟩
        rcases hside with h | h
        · exact Or.inl (by simp [h])
        · obtain ⟨k, hk, hstart⟩ := h
          cases k with
          | zero =>
            simp only [List.getD_cons_zero] at hstart
            exact Or.inl (by simp [hstart])
          | succ k =>
            exact Or.inr ⟨k, by omega, by simpa using hstart⟩

/-- C5 counterexample: the text `"<<<<<<<\n>>>>>>>\n<<<<<<<"` contains a
start-marker line at index 2 — its last line — with no end-marker line at
or after it, yet the locator returns the earlier complete hunk instead of
null. -/
theorem C5_counterexample :
    (splitNl "<<<<<<<\n>>>>>>>\n<<<<<<<".toList).length = 3 ∧
    isStartLine ((splitNl "<<<<<<<\n>>>>>>>\n<<<<<<<".toList).getD 2 []) = true ∧
    isEndLine ((splitNl "<<<<<<<\n>>>>>>>\n<<<<<<<".toList).getD 2 []) = false ∧
    findFirstConflictHunk "<<<<<<<\n>>>>>>>\n<<<<<<<".toList =
      some { startLine := 0, endLine := 1, hunkText := "<<<<<<<\n>>>>>>>\n".toList } := by
  decide

/-- C5 (amended): the locator returns null exactly when no line starting
with `>>>>>>>` has a line starting with `<<<<<<<` at or before it — in
particular when no start marker is present at all, or when a start marker
exists but no end marker follows the first start marker.  An orphan start
marker occurring after an earlier complete hunk does not make the result
null: the earlier hunk is returned. -/
theorem C5_orphan_start (fileContent : List Char) :
    findFirstConflictHunk fileContent = none ↔
      ¬ ∃ j, j < (splitNl fileContent).length ∧
        isEndLine ((splitNl fileContent).getD j []) = true ∧
        ∃ k, k ≤ j ∧ isStartLine ((splitNl fileContent).getD k []) = true := by
  have hnone : findFirstConflictHunk fileContent = none ↔
      findLoop (splitNl fileContent) 0 none = none := by
    unfold findFirstConflictHunk
    cases h : findLoop (splitNl fileContent) 0 none with
    | none => simp [h]
    | some p => cases p with | mk s e => simp [h]
  rw [hnone]
  have hsome := findLoop_isSome (splitNl fileContent) 0 none
  rw [Option.isSome] at hsome
  constructor
  · intro h hex
    rw [h] at hsome
    have := (hasHunkB_iff (splitNl fileContent) false).mpr (by
      obtain ⟨j, hj, hend, k, hk, hstart⟩ := hex
      exact ⟨j, hj, hend, Or.inr ⟨k, hk, hstart⟩⟩)
    rw [this] at hsome
    simp at hsome
  · intro h
    cases hfl : findLoop (splitNl fileContent) 0 none with
    | none => rfl
    | some p =>
      exfalso
      rw [hfl] at hsome
      have := (hasHunkB_iff (splitNl fileContent) false).mp hsome.symm
      obtain ⟨j, hj, hend, hside⟩ := this
      rcases hside with hseen | ⟨k, hk, hstart⟩
      · simp at hseen
      · exact h ⟨j, hj, hend, k, hk, hstart⟩

theorem startsWith_head (c : Char) (p l : List Char)
    (h : startsWith (c :: p) l = true) : ∃ t, l = c :: t := by
  cases l with
  | nil => simp [startsWith] at h
  | cons d ds =>
    simp only [startsWith, Bool.and_eq_true, beq_iff_eq] at h
    exact ⟨ds, by rw [h.1]⟩

theorem startsWith_ne_head (c d : Char) (p q l : List Char) (hcd : c ≠ d)
    (h : startsWith (c :: p) l = true) : startsWith (d :: q) l = false := by
  obtain ⟨t, rfl⟩ := startsWith_head c p l h
  have hdc : (d == c) = false := beq_eq_false_iff_ne.mpr fun hh => hcd hh.symm
  simp [startsWith, hdc]

theorem isStartLine_excl (l : List Char) (h : isStartLine l = true) :
    isMiddleLine l = false ∧ isSepLine l = false ∧ isEndLine l = false := by
  unfold isStartLine CONFLICT_START at h
  exact ⟨startsWith_ne_head '<' '|' _ _ l (by decide) h,
         startsWith_ne_head '<' '=' _ _ l (by decide) h,
         startsWith_ne_head '<' '>' _ _ l (by decide) h⟩

theorem isMiddleLine_excl (l : List Char) (h : isMiddleLine l = true) :
    isSepLine l = false ∧ isEndLine l = false := by
  unfold isMiddleLine CONFLICT_MIDDLE_OLD at h
  exact ⟨startsWith_ne_head '|' '=' _ _ l (by decide) h,
         startsWith_ne_head '|' '>' _ _ l (by decide) h⟩

theorem isSepLine_excl (l : List Char) (h : isSepLine l = true) :
    isEndLine l = false := by
  unfold isSepLine CONFLICT_SEPARATOR at h
  exact startsWith_ne_head '=' '>' _ _ l (by decide) h

theorem preEnd_cons_end (l : List Char) (rest : List (List Char))
    (h : isEndLine l = true) : preEnd (l :: rest) = [] := by
  simp [preEnd, firstIdxP, h]

theorem preEnd_cons_ne (l : List Char) (rest : List (List Char))
    (h : isEndLine l = false) : preEnd (l :: rest) = l :: preEnd rest := by
  unfold preEnd
  cases hf : firstIdxP isEndLine rest with
  | none => simp [firstIdxP, h, hf]
  | some j => simp [firstIdxP, h, hf]

theorem shiftedOr_cons_true (P : List Char → Bool) (l : List Char)
    (pre : List (List Char)) (i : Nat) (a : Option Nat) (h : P l = true) :
    shiftedOr a i (lastIdxP P (l :: pre)) = shiftedOr (some i) (i + 1) (lastIdxP P pre) := by
  cases hl : lastIdxP P pre with
  | none => simp [lastIdxP, hl, h, shiftedOr]
  | some j =>
    simp only [lastIdxP, hl, shiftedOr, Option.some.injEq]
    omega

theorem shiftedOr_cons_false (P : List Char → Bool) (l : List Char)
    (pre : List (List Char)) (i : Nat) (a : Option Nat) (h : P l = false) :
    shiftedOr a i (lastIdxP P (l :: pre)) = shiftedOr a (i + 1) (lastIdxP P pre) := by
  cases hl : lastIdxP P pre with
  | none => simp [lastIdxP, hl, h, shiftedOr]
  | some j =>
    simp only [lastIdxP, hl, shiftedOr, Option.some.injEq]
    omega

theorem firstIdxP_map_shift (l : List Char) (rest : List (List Char)) (i : Nat)
    (h : isEndLine l = false) :
    (firstIdxP isEndLine (l :: rest)).map (· + i) =
      (firstIdxP isEndLine rest).map (· + (i + 1)) := by
  cases hf : firstIdxP isEndLine rest with
  | none => simp [firstIdxP, h, hf]
  | some j =>
    simp [firstIdxP, h, hf]
    omega

theorem scanMarkers_eq (lines : List (List Char)) :
    ∀ (i : Nat) (a b c : Option Nat),
      scanMarkers lines i a b c =
        (shiftedOr a i (lastIdxP isStartLine (preEnd lines)),
         shiftedOr b i (lastIdxP isMiddleLine (preEnd lines)),
         shiftedOr c i (lastIdxP isSepLine (preEnd lines)),
         (firstIdxP isEndLine lines).map (· + i)) := by
  induction lines with
  | nil => intro i a b c; simp [scanMarkers, preEnd, firstIdxP, lastIdxP, shiftedOr]
  | cons l rest ih =>
    intro i a b c
    by_cases hS : isStartLine l = true
    · obtain ⟨hM, hP, hE⟩ := isStartLine_excl l hS
      rw [show scanMarkers (l :: rest) i a b c = scanMarkers rest (i + 1) (some i) b c from
          by simp [scanMarkers, hS],
        ih (i + 1) (some i) b c, preEnd_cons_ne l rest hE,
        shiftedOr_cons_true isStartLine l (preEnd rest) i a hS,
        shiftedOr_cons_false isMiddleLine l (preEnd rest) i b hM,
        shiftedOr_cons_false isSepLine l (preEnd rest) i c hP,
        firstIdxP_map_shift l rest i hE]
    · simp only [Bool.not_eq_true] at hS
      by_cases hM : isMiddleLine l = true
      · obtain ⟨hP, hE⟩ := isMiddleLine_excl l hM
        rw [show scanMarkers (l :: rest) i a b c = scanMarkers rest (i + 1) a (some i) c from
            by simp [scanMarkers, hS, hM],
          ih (i + 1) a (some i) c, preEnd_cons_ne l rest hE,
          shiftedOr_cons_false isStartLine l (preEnd rest) i a hS,
          shiftedOr_cons_true isMiddleLine l (preEnd rest) i b hM,
          shiftedOr_cons_false isSepLine l (preEnd rest) i c hP,
          firstIdxP_map_shift l rest i hE]
      · simp only [Bool.not_eq_true] at hM
        by_cases hP : isSepLine l = true
        · have hE := isSepLine_excl l hP
          rw [show scanMarkers (l :: rest) i a b c = scanMarkers rest (i + 1) a b (some i) from
              by simp [scanMarkers, hS, hM, hP],
            ih (i + 1) a b (some i), preEnd_cons_ne l rest hE,
            shiftedOr_cons_false isStartLine l (preEnd rest) i a hS,
            shiftedOr_cons_false isMiddleLine l (preEnd rest) i b hM,
            shiftedOr_cons_true isSepLine l (preEnd rest) i c hP,
            firstIdxP_map_shift l rest i hE]
        · simp only [Bool.not_eq_true] at hP
          by_cases hE : isEndLine l = true
          · rw [show scanMarkers (l :: rest) i a b c = (a, b, c, some i) from
                by simp [scanMarkers, hS, hM, hP, hE],
              preEnd_cons_end l rest hE]
            simp [lastIdxP, shiftedOr, firstIdxP, hE, preEnd]
          · simp only [Bool.not_eq_true] at hE
            rw [show scanMarkers (l :: rest) i a b c = scanMarkers rest (i + 1) a b c from
                by simp [scanMarkers, hS, hM, hP, hE],
              ih (i + 1) a b c, preEnd_cons_ne l rest hE,
              shiftedOr_cons_false isStartLine l (preEnd rest) i a hS,
              shiftedOr_cons_false isMiddleLine l (preEnd rest) i b hM,
              shiftedOr_cons_false isSepLine l (preEnd rest) i c hP,
              firstIdxP_map_shift l rest i hE]

theorem shiftedOr_none_zero (x : Option Nat) : shiftedOr none 0 x = x := by
  cases x <;> simp [shiftedOr]

theorem optionMap_add_zero (x : Option Nat) : x.map (· + 0) = x := by
  cases x <;> simp

/-- C4 counterexample: on the hunk text
`"<<<<<<<\n=======\n=======\n>>>>>>>\n"`, which contains two separator
lines, the parser delimits the sections at the second (last) `=======`
line — `newOld = "=======\n"`, `new = "\n"` — while first-occurrence
delimiting would give `newOld = "\n"`, `new = "=======\n"`; so the
sections are not delimited by the first occurrence of each marker type. -/
theorem C4_counterexample :
    parseConflictMarkers "<<<<<<<\n=======\n=======\n>>>>>>>\n".toList ≠
      claimParseConflictMarkers "<<<<<<<\n=======\n=======\n>>>>>>>\n".toList ∧
    parseConflictMarkers "<<<<<<<\n=======\n=======\n>>>>>>>\n".toList =
      some { newOld := "=======\n".toList, old := none, new := "\n".toList } ∧
    claimParseConflictMarkers "<<<<<<<\n=======\n=======\n>>>>>>>\n".toList =
      some { newOld := "\n".toList, old := none, new := "=======\n".toList } := by
  decide

/-- C4 (amended): the sections returned by the marker parser are delimited
by the last line starting with `<<<<<<<`, the last line starting with
`|||||||` and the last line starting with `=======` that occur strictly
before the first line starting with `>>>>>>>`, together with that first
`>>>>>>>` line (each later occurrence of a marker overwrites the earlier
one; the scan stops at the first end marker). -/
theorem C4_marker_selection (hunkText : List Char) :
    parseConflictMarkers hunkText = specParseConflictMarkers hunkText := by
  simp only [parseConflictMarkers, specParseConflictMarkers]
  rw [scanMarkers_eq (splitNl hunkText) 0 none none none, shiftedOr_none_zero,
    shiftedOr_none_zero, shiftedOr_none_zero, optionMap_add_zero]
  cases lastIdxP isStartLine (preEnd (splitNl hunkText)) <;>
    cases lastIdxP isMiddleLine (preEnd (splitNl hunkText)) <;>
      cases lastIdxP isSepLine (preEnd (splitNl hunkText)) <;>
        cases firstIdxP isEndLine (splitNl hunkText) <;> rfl

/-- C8 counterexample: the hunk text `">>>>>>>\n<<<<<<<\n=======\n>>>>>>>\n"`
contains start, separator and end marker lines, yet the parser returns
null, because its scan stops at the very first end-marker line, before any
start or separator has been seen; so "returns null iff a marker is
missing" fails in the right-to-left direction. -/
theorem C8_counterexample :
    parseConflictMarkers ">>>>>>>\n<<<<<<<\n=======\n>>>>>>>\n".toList = none ∧
    ((splitNl ">>>>>>>\n<<<<<<<\n=======\n>>>>>>>\n".toList).any isStartLine) = true ∧
    ((splitNl ">>>>>>>\n<<<<<<<\n=======\n>>>>>>>\n".toList).any isSepLine) = true ∧
    ((splitNl ">>>>>>>\n<<<<<<<\n=======\n>>>>>>>\n".toList).any isEndLine) = true := by
  decide

/-- C8 (amended): the parser returns null exactly when no start-marker
line or no separator line occurs strictly before the first end-marker
line, or no end-marker line exists at all; and on success the returned
`old` section is null exactly when no middle (`|||||||`) line occurs
strictly before the first end-marker line. -/
theorem C8_failure_and_format (t : List Char) :
    (parseConflictMarkers t = none ↔
      (lastIdxP isStartLine (preEnd (splitNl t)) = none ∨
       lastIdxP isSepLine (preEnd (splitNl t)) = none ∨
       firstIdxP isEndLine (splitNl t) = none)) ∧
    (∀ s, parseConflictMarkers t = some s →
      (s.old = none ↔ lastIdxP isMiddleLine (preEnd (splitNl t)) = none)) := by
  simp only [parseConflictMarkers]
  rw [scanMarkers_eq (splitNl t) 0 none none none, shiftedOr_none_zero,
    shiftedOr_none_zero, shiftedOr_none_zero, optionMap_add_zero]
  cases lastIdxP isStartLine (preEnd (splitNl t)) <;>
    cases lastIdxP isMiddleLine (preEnd (splitNl t)) <;>
      cases lastIdxP isSepLine (preEnd (splitNl t)) <;>
        cases firstIdxP isEndLine (splitNl t) <;> simp

/-- C8 witness: instantiation of `C8_failure_and_format` at the 2-way hunk
text `"<<<<<<<\na\n=======\nb\n>>>>>>>\n"`, whose parse succeeds with a
null `old` section and which has no middle-marker line. -/
theorem C8_failure_and_format_witness :
    parseConflictMarkers "<<<<<<<\na\n=======\nb\n>>>>>>>\n".toList =
      some { newOld := "a\n".toList, old := none, new := "b\n".toList } ∧
    (({ newOld := "a\n".toList, old := none, new := "b\n".toList } :
        ConflictSections).old = none ↔
      lastIdxP isMiddleLine (preEnd (splitNl "<<<<<<<\na\n=======\nb\n>>>>>>>\n".toList)) = none) :=
  ⟨by decide,
   (C8_failure_and_format "<<<<<<<\na\n=======\nb\n>>>>>>>\n".toList).2
     { newOld := "a\n".toList, old := none, new := "b\n".toList } (by decide)⟩

theorem findLoop_some_bounds (lines : List (List Char)) :
    ∀ (i : Nat) (st : Option Nat) (s e : Nat),
      (∀ v, st = some v → v ≤ i) → findLoop lines i st = some (s, e) →
      s ≤ e ∧ i ≤ e ∧ e < i + lines.length := by
  induction lines with
  | nil => intro i st s e hst h; simp [findLoop] at h
  | cons line rest ih =>
    intro i st s e hst h
    by_cases hS : isStartLine line = true
    · simp only [findLoop, hS, if_true] at h
      by_cases hE : isEndLine line = true
      · simp only [hE, if_true, Option.some.injEq, Prod.mk.injEq] at h
        obtain ⟨hs, he⟩ := h
        subst hs
        subst he
        simp only [List.length_cons]
        omega
      · simp only [hE, if_false, Bool.false_eq_true] at h
        obtain ⟨h1, h2, h3⟩ := ih (i + 1) (some i) s e
          (fun v hv => by
            have : v = i := by simpa using hv.symm
            omega) h
        simp only [List.length_cons]
        omega
    · simp only [Bool.not_eq_true] at hS
      simp only [findLoop, hS, Bool.false_eq_true, if_false] at h
      cases hstv : st with
      | none =>
        rw [hstv] at h
        obtain ⟨h1, h2, h3⟩ := ih (i + 1) none s e (by simp) h
        simp only [List.length_cons]
        omega
      | some sv =>
        have hsvi : sv ≤ i := hst sv hstv
        rw [hstv] at h
        by_cases hE : isEndLine line = true
        · simp only [hE, if_true, Option.some.injEq, Prod.mk.injEq] at h
          obtain ⟨hs, he⟩ := h
          subst hs
          subst he
          simp only [List.length_cons]
          omega
        · simp only [hE, if_false, Bool.false_eq_true] at h
          obtain ⟨h1, h2, h3⟩ := ih (i + 1) (some sv) s e
            (fun v hv => by
              have : v = sv := by simpa using hv.symm
              omega) h
          simp only [List.length_cons]
          omega

theorem popTrailingEmpty_subset (ls : List (List Char)) :
    popTrailingEmpty ls ⊆ ls := by
  unfold popTrailingEmpty
  split
  · exact List.dropLast_subset ls
  · exact fun x hx => hx

/-- C2 counterexample: when the conflict hunk spans the entire file, the
file has no trailing terminator, and the resolved text is empty, the apply
step writes the empty content; undo then splices into `[""]` (the split of
the empty content) and reproduces the original content with a trailing
terminator appended — not byte-for-byte. -/
theorem C2_counterexample :
    findFirstConflictHunk "<<<<<<<\n|||||||\n=======\n>>>>>>>".toList =
      some { startLine := 0, endLine := 3,
             hunkText := "<<<<<<<\n|||||||\n=======\n>>>>>>>\n".toList } ∧
    (applyResolvedHunk "<<<<<<<\n|||||||\n=======\n>>>>>>>".toList
        { startLine := 0, endLine := 3,
          hunkText := "<<<<<<<\n|||||||\n=======\n>>>>>>>\n".toList } []).1 = [] ∧
    performUndo
        (applyResolvedHunk "<<<<<<<\n|||||||\n=======\n>>>>>>>".toList
          { startLine := 0, endLine := 3,
            hunkText := "<<<<<<<\n|||||||\n=======\n>>>>>>>\n".toList } []).2
        (applyResolvedHunk "<<<<<<<\n|||||||\n=======\n>>>>>>>".toList
          { startLine := 0, endLine := 3,
            hunkText := "<<<<<<<\n|||||||\n=======\n>>>>>>>\n".toList } []).1 =
      "<<<<<<<\n|||||||\n=======\n>>>>>>>\n".toList := by
  decide

/-- C2 (amended): for every file in which the locator finds a conflict
hunk and every resolved text, applying the resolution and then undoing it
reproduces the original file content byte-for-byte, provided the spliced
line list written by the apply step is nonempty — which fails only when
the hunk spans the whole terminator-less file and the resolved text is
empty (the case of the counterexample, where undo appends a trailing
terminator). -/
theorem C2_apply_undo_roundtrip (fileContent resolvedContent : List Char)
    (info : ConflictInfo)
    (hfind : findFirstConflictHunk fileContent = some info)
    (hne : (splitNl fileContent).take info.startLine ++
        popTrailingEmpty (splitNl resolvedContent) ++
        (splitNl fileContent).drop (info.endLine + 1) ≠ []) :
    performUndo (applyResolvedHunk fileContent info resolvedContent).2
      (applyResolvedHunk fileContent info resolvedContent).1 = fileContent := by
  have hex : ∃ s e, findLoop (splitNl fileContent) 0 none = some (s, e) ∧
      info = { startLine := s, endLine := e,
               hunkText := joinNl (jsSlice (splitNl fileContent) s (e + 1)) ++ ['\n'] } := by
    simp only [findFirstConflictHunk] at hfind
    cases hfl0 : findLoop (splitNl fileContent) 0 none with
    | none => rw [hfl0] at hfind; simp at hfind
    | some p =>
      cases p with
      | mk s e =>
        rw [hfl0] at hfind
        exact ⟨s, e, rfl, by simpa using hfind.symm⟩
  obtain ⟨s, e, hfl, hinfo⟩ := hex
  subst hinfo
  simp only at hne
  obtain ⟨hse, h0e, helen⟩ :=
    findLoop_some_bounds (splitNl fileContent) 0 none s e (by simp) hfl
  have hBlen : ((splitNl fileContent).take s).length = s := by
    rw [List.length_take]
    omega
  have hnoNl : ∀ p ∈ (splitNl fileContent).take s ++
      popTrailingEmpty (splitNl resolvedContent) ++
      (splitNl fileContent).drop (e + 1), '\n' ∉ p := by
    intro p hp
    rcases List.mem_append.mp hp with hp2 | hp2
    · rcases List.mem_append.mp hp2 with hp3 | hp3
      · exact splitNl_no_newline fileContent p (List.take_subset _ _ hp3)
      · exact splitNl_no_newline resolvedContent p (popTrailingEmpty_subset _ hp3)
    · exact splitNl_no_newline fileContent p (List.drop_subset _ _ hp2)
  have hsplit : splitNl (joinNl ((splitNl fileContent).take s ++
      popTrailingEmpty (splitNl resolvedContent) ++
      (splitNl fileContent).drop (e + 1))) =
      (splitNl fileContent).take s ++ popTrailingEmpty (splitNl resolvedContent) ++
      (splitNl fileContent).drop (e + 1) :=
    splitNl_joinNl _ hnoNl hne
  have hHne : jsSlice (splitNl fileContent) s (e + 1) ≠ [] := by
    unfold jsSlice
    intro hnil
    have hlen := congrArg List.length hnil
    rw [List.length_take, List.length_drop] at hlen
    simp only [List.length_nil] at hlen
    omega
  have hHnl : ∀ p ∈ jsSlice (splitNl fileContent) s (e + 1), '\n' ∉ p := by
    intro p hp
    unfold jsSlice at hp
    exact splitNl_no_newline fileContent p (List.drop_subset _ _ (List.take_subset _ _ hp))
  have hHsplit : splitNl (joinNl (jsSlice (splitNl fileContent) s (e + 1)) ++ ['\n']) =
      jsSlice (splitNl fileContent) s (e + 1) ++ [[]] := by
    rw [splitNl_append_newline, splitNl_joinNl _ hHnl hHne]
  have hHpop : popTrailingEmpty (jsSlice (splitNl fileContent) s (e + 1) ++ [[]]) =
      jsSlice (splitNl fileContent) s (e + 1) := by
    unfold popTrailingEmpty
    rw [List.getLast?_concat, if_pos rfl, List.dropLast_concat]
  have htake : ((splitNl fileContent).take s ++ popTrailingEmpty (splitNl resolvedContent) ++
      (splitNl fileContent).drop (e + 1)).take s = (splitNl fileContent).take s := by
    rw [List.append_assoc]
    exact List.take_left' hBlen
  have hdrop : ((splitNl fileContent).take s ++ popTrailingEmpty (splitNl resolvedContent) ++
      (splitNl fileContent).drop (e + 1)).drop
        (s + (popTrailingEmpty (splitNl resolvedContent)).length) =
      (splitNl fileContent).drop (e + 1) := by
    exact List.drop_left' (by rw [List.length_append, hBlen])
  have hrejoin : (splitNl fileContent).take s ++ jsSlice (splitNl fileContent) s (e + 1) ++
      (splitNl fileContent).drop (e + 1) = splitNl fileContent := by
    have hdd : (splitNl fileContent).drop (e + 1) =
        ((splitNl fileContent).drop s).drop (e + 1 - s) := by
      rw [List.drop_drop]
      congr 1
      omega
    rw [List.append_assoc, hdd]
    unfold jsSlice
    rw [List.take_append_drop, List.take_append_drop]
  show joinNl
      ((splitNl (joinNl ((splitNl fileContent).take s ++
          popTrailingEmpty (splitNl resolvedContent) ++
          (splitNl fileContent).drop (e + 1)))).take s ++
        popTrailingEmpty (splitNl (joinNl (jsSlice (splitNl fileContent) s (e + 1)) ++ ['\n'])) ++
        (splitNl (joinNl ((splitNl fileContent).take s ++
          popTrailingEmpty (splitNl resolvedContent) ++
          (splitNl fileContent).drop (e + 1)))).drop
          (s + (popTrailingEmpty (splitNl resolvedContent)).length)) = fileContent
  rw [hsplit, hHsplit, hHpop, htake, hdrop, hrejoin, joinNl_splitNl]

/-- C2 witness: instantiation of `C2_apply_undo_roundtrip` at a file with
one 3-way hunk surrounded by context lines and the resolved text `"R\n"`. -/
theorem C2_apply_undo_roundtrip_witness :
    findFirstConflictHunk "a\n<<<<<<< x\n1\n||||||| y\n2\n=======\n3\n>>>>>>> z\nb\n".toList =
      some { startLine := 1, endLine := 7,
             hunkText := "<<<<<<< x\n1\n||||||| y\n2\n=======\n3\n>>>>>>> z\n".toList } ∧
    performUndo
        (applyResolvedHunk "a\n<<<<<<< x\n1\n||||||| y\n2\n=======\n3\n>>>>>>> z\nb\n".toList
          { startLine := 1, endLine := 7,
            hunkText := "<<<<<<< x\n1\n||||||| y\n2\n=======\n3\n>>>>>>> z\n".toList }
          "R\n".toList).2
        (applyResolvedHunk "a\n<<<<<<< x\n1\n||||||| y\n2\n=======\n3\n>>>>>>> z\nb\n".toList
          { startLine := 1, endLine := 7,
            hunkText := "<<<<<<< x\n1\n||||||| y\n2\n=======\n3\n>>>>>>> z\n".toList }
          "R\n".toList).1 =
      "a\n<<<<<<< x\n1\n||||||| y\n2\n=======\n3\n>>>>>>> z\nb\n".toList :=
  ⟨by decide,
   C2_apply_undo_roundtrip
     "a\n<<<<<<< x\n1\n||||||| y\n2\n=======\n3\n>>>>>>> z\nb\n".toList
     "R\n".toList
     { startLine := 1, endLine := 7,
       hunkText := "<<<<<<< x\n1\n||||||| y\n2\n=======\n3\n>>>>>>> z\n".toList }
     (by decide) (by decide)⟩

/-- C9: when the conflict sections' `old` and `newOld` texts are
identical, so that the external diff collaborator reports no difference
(empty diff output, per the collaborator contract), the resolver
short-circuits and returns the `new` section unchanged — applying the
diff of a text against itself leaves the target unchanged. -/
theorem C9_resolver_identity (diffOracle : List Char → List Char → List Char)
    (sections : ConflictSections) (X : List Char)
    (hold : sections.old = some X) (hnewOld : sections.newOld = X)
    (hdiff : jsTrim (diffOracle X X) = []) :
    resolveHunk diffOracle sections = sections.new := by
  unfold resolveHunk
  rw [hold, hnewOld]
  simp only [Option.getD_some]
  rw [if_pos hdiff]

/-- C9 witness: instantiation of `C9_resolver_identity` with a diff
oracle that reports no difference on equal inputs and a section record
whose `old` and `newOld` are both `"x\n"`. -/
theorem C9_resolver_identity_witness :
    resolveHunk (fun _ _ => [])
      { newOld := "x\n".toList, old := some "x\n".toList, new := "y\n".toList } =
      "y\n".toList :=
  C9_resolver_identity (fun _ _ => [])
    { newOld := "x\n".toList, old := some "x\n".toList, new := "y\n".toList }
    "x\n".toList rfl rfl (by decide)
